import Mathlib

/-!
# Verification of the snmpsim variation modules

Shallow embedding of `snmpsim/variation/delay.py` and
`snmpsim/variation/multiplex.py`, with theorems settling the frozen claims
about their behaviour.  Machine floats of the source are modelled by exact
rationals (`ℚ`); Python dictionaries by association lists; the ambient
`recordContext` / `moduleContext` session dictionaries by explicit state
values threaded through each operation.
-/

/-- An object identifier: the dotted numeric path, as a list of arcs. -/
abbrev Oid := List Nat

/-- The universe of SNMP values the variation modules handle.  `err` is the
distinguished `errorStatus` object echoed on no-data outcomes. -/
inductive SnmpVal
  | int (n : ℤ)
  | str (s : String)
  | err
  deriving DecidableEq

/-- Python `==` between SNMP values.  The source only ever compares values of
the record's own SNMP type (the override tables are built by casting through
the grammar's tag map), so like constructors compare componentwise and
unlike constructors compare unequal. -/
def pyEq : SnmpVal → SnmpVal → Bool
  | .int a, .int b => a == b
  | .str a, .str b => a == b
  | .err, .err => true
  | _, _ => false

/-- Python `<` between SNMP values, same typing discipline as `pyEq`. -/
def pyLt : SnmpVal → SnmpVal → Bool
  | .int a, .int b => decide (a < b)
  | .str a, .str b => decide (a < b)
  | _, _ => false

namespace Delay

/-- The parsed `vlist` value-override table (`delay.py` lines 48-79):
`eq` entries accumulate into a dict keyed by value, while repeated
`lt`/`gt` entries overwrite a single `(threshold, delay)` pair. -/
structure VOverrides where
  eq : List (SnmpVal × ℤ)
  lt : Option (SnmpVal × ℤ)
  gt : Option (SnmpVal × ℤ)
  deriving DecidableEq

/-- The parsed `tlist` time-override table (`delay.py` lines 81-108),
keyed on whole-second wall-clock times. -/
structure TOverrides where
  eq : List (ℤ × ℤ)
  lt : Option (ℤ × ℤ)
  gt : Option (ℤ × ℤ)
  deriving DecidableEq

/-- Membership-plus-lookup in the `vlist['eq']` dict: Python's
`origValue in d` / `d[origValue]` pair, over the association-list model. -/
def lookupEq (table : List (SnmpVal × ℤ)) (v : SnmpVal) : Option ℤ :=
  match table with
  | [] => none
  | (k, d) :: rest => if pyEq k v then some d else lookupEq rest v

/-- Lookup in the `tlist['eq']` dict. -/
def lookupEqT (table : List (ℤ × ℤ)) (v : ℤ) : Option ℤ :=
  match table with
  | [] => none
  | (k, d) :: rest => if k == v then some d else lookupEqT rest v

/-- The record's parsed delay settings (`recordContext['settings']`,
`delay.py` lines 25-108).  `value` is the optional fixed substitute value
(from the `value` or `hexvalue` key). -/
structure Settings where
  wait : ℚ
  deviation : ℚ
  value : Option SnmpVal
  vlist : Option VOverrides
  tlist : Option TOverrides
  deriving DecidableEq

/-- `gt` arm of the vlist selection (`delay.py` lines 119-124). -/
def vlistGt (t : VOverrides) (v : SnmpVal) (wait : ℚ) : ℚ :=
  match t.gt with
  | some (thr, d) => if pyLt thr v then (d : ℚ) else wait
  | none => wait

/-- The vlist branch of the delay selection (`delay.py` lines 110-124):
exact `eq` dict hit, else `lt` strict-below, else `gt` strict-above,
else the base wait. -/
def vlistSelect (t : VOverrides) (v : SnmpVal) (wait : ℚ) : ℚ :=
  match lookupEq t.eq v with
  | some d => (d : ℚ)
  | none =>
    match t.lt with
    | some (thr, d) => if pyLt v thr then (d : ℚ) else vlistGt t v wait
    | none => vlistGt t v wait

/-- The source's `eq` guard in the tlist branch (`delay.py` line 129) is
`now == recordContext['settings']['tlist']['eq']`: it compares the integer
`now` with the `eq` *dict object itself*.  In Python an `int` never equals
a `dict`, so this test is false for every `now` and every table. -/
def pyIntEqDict (_now : ℤ) (_d : List (ℤ × ℤ)) : Bool := false

/-- `gt` arm of the tlist selection (`delay.py` lines 136-141). -/
def tlistGt (t : TOverrides) (now : ℤ) (wait : ℚ) : ℚ :=
  match t.gt with
  | some (thr, d) => if thr < now then (d : ℚ) else wait
  | none => wait

/-- The tlist branch of the delay selection (`delay.py` lines 126-141).
The first guard models `'eq' in tlist and now == tlist['eq']`; its body
(`tlist['eq'][now]`, a dict subscript) is unreachable because
`pyIntEqDict` is constantly false. -/
def tlistSelect (t : TOverrides) (now : ℤ) (wait : ℚ) : ℚ :=
  if t.eq ≠ [] ∧ pyIntEqDict now t.eq = true then
    ((lookupEqT t.eq now).getD 0 : ℚ)
  else
    match t.lt with
    | some (thr, d) => if now < thr then (d : ℚ) else tlistGt t now wait
    | none => tlistGt t now wait

/-- Delay selection (`delay.py` lines 110-144): the vlist branch fires only
for a write (`setFlag`) with a configured vlist; otherwise a configured
tlist is consulted; otherwise the base wait is used. -/
def selectDelay (s : Settings) (setFlag : Bool) (v : SnmpVal) (now : ℤ) : ℚ :=
  match setFlag, s.vlist with
  | true, some t => vlistSelect t v s.wait
  | _, _ =>
    match s.tlist with
    | some t => tlistSelect t now s.wait
    | none => s.wait

/-- The selected delay after the jitter step (`delay.py` lines 146-149):
when `deviation` is non-zero (Python truthiness) the random draw `j` of
`random.randrange(-deviation, deviation)` is added. -/
def jitteredDelay (s : Settings) (setFlag : Bool) (v : SnmpVal) (now j : ℤ) : ℚ :=
  let d := selectDelay s setFlag v now
  if s.deviation ≠ 0 then d + (j : ℚ) else d

/-- The jittered delay after the negative clamp of `delay.py` lines 151-152. -/
def clampedDelay (s : Settings) (setFlag : Bool) (v : SnmpVal) (now j : ℤ) : ℚ :=
  max 0 (jitteredDelay s setFlag v now j)

/-- The set of values `random.randrange(-d, d)` can return: the integers of
`[-d, d)`.  CPython's `randrange` accepts only integral float bounds
(raising otherwise, so a non-integral deviation admits no draw at all) and
draws uniformly across the range; uniformity is a property of the external
`random` library and is modelled here by quantifying over the support. -/
def randrangeSupport (d : ℚ) : Set ℤ :=
  {j | d.den = 1 ∧ -d ≤ (j : ℚ) ∧ (j : ℚ) < d}

/-- Per-request context handed to `variate` by the responder. -/
structure Ctx where
  nextFlag : Bool
  exactMatch : Bool
  setFlag : Bool
  origOid : Oid
  origValue : SnmpVal
  errorStatus : SnmpVal
  deriving DecidableEq

/-- Outcome of one `delay.variate` call: either the response is dropped
(`error.NoDataNotification` raised, `delay.py` line 156), or a triple is
returned after sleeping `sleptMs` milliseconds; `sleptMs = none` marks the
early return of lines 22-23, which reaches no delay computation and no
sleep. -/
inductive Result
  | drop
  | ret (sleptMs : Option ℚ) (oid : Oid) (tag : String) (value : SnmpVal)
  deriving DecidableEq

/-- The returned value (`delay.py` lines 162-166): a write, or a record with
no fixed `value` configured, echoes the original value; otherwise the
configured fixed value is substituted. -/
def retValue (s : Settings) (ctx : Ctx) : SnmpVal :=
  if ctx.setFlag then ctx.origValue
  else
    match s.value with
    | some v => v
    | none => ctx.origValue

/-- `delay.variate` (`delay.py` lines 21-166).  `parsed` is the settings the
lazy parse of the record's value string would produce (the parse itself
involves the external snmprec grammar); it is consulted only on a cache
miss, mirroring the `'settings' not in recordContext` guard.  `j` is the
jitter draw, `now` the whole-second wall clock.  Returns the updated
settings cache together with the request outcome. -/
def variate (parsed : Settings) (cache : Option Settings) (ctx : Ctx)
    (oid : Oid) (tag : String) (j now : ℤ) : Option Settings × Result :=
  if ctx.nextFlag = false ∧ ctx.exactMatch = false then
    (cache, .ret none ctx.origOid tag ctx.errorStatus)
  else
    let s := cache.getD parsed
    let delay := jitteredDelay s ctx.setFlag ctx.origValue now j
    if delay < 0 then
      (some s, .ret (some 0) oid tag (retValue s ctx))
    else if delay > 99999 then
      (some s, .drop)
    else
      (some s, .ret (some delay) oid tag (retValue s ctx))

end Delay

namespace Delay

/-- C10: when the prior lookup was inexact and the request is not a "next"
traversal, `delay.variate` immediately echoes the original identifier and
error-status: no settings parse, no delay computation, no sleep
(`sleptMs = none`), and the cached settings state is returned unchanged. -/
theorem early_return_on_inexact (parsed : Settings) (cache : Option Settings)
    (ctx : Ctx) (oid : Oid) (tag : String) (j now : ℤ)
    (hn : ctx.nextFlag = false) (he : ctx.exactMatch = false) :
    variate parsed cache ctx oid tag j now =
      (cache, .ret none ctx.origOid tag ctx.errorStatus) := by
  simp [variate, hn, he]

/-- Closed instance of `early_return_on_inexact`. -/
theorem early_return_on_inexact_witness :
    variate ⟨500, 0, none, none, none⟩ none
        ⟨false, false, false, [1, 3], .int 7, .err⟩ [1, 3] "t" 0 0 =
      (none, .ret none [1, 3] "t" .err) :=
  early_return_on_inexact _ _ _ _ _ _ _ rfl rfl

/-- C4: on the main path, `delay.variate` drops the response exactly when
the delay after override selection, jitter and negative clamping exceeds
99999 ms; a clamped delay of at most 99999 always yields a returned
value. -/
theorem drop_iff_clamped_exceeds_limit (parsed : Settings)
    (cache : Option Settings) (ctx : Ctx) (oid : Oid) (tag : String)
    (j now : ℤ) (hpath : ctx.nextFlag = true ∨ ctx.exactMatch = true) :
    (variate parsed cache ctx oid tag j now).2 = .drop ↔
      99999 < clampedDelay (cache.getD parsed) ctx.setFlag ctx.origValue now j := by
  have hcond : ¬(ctx.nextFlag = false ∧ ctx.exactMatch = false) := by
    rcases hpath with h | h <;> simp [h]
  unfold variate clampedDelay
  rw [if_neg hcond]
  dsimp only
  set d := jitteredDelay (cache.getD parsed) ctx.setFlag ctx.origValue now j with hd
  split_ifs with h1 h2
  · rw [max_eq_left h1.le]
    simp only [reduceCtorEq, false_iff, not_lt]
    norm_num
  · rw [max_eq_right (not_lt.mp h1)]
    exact iff_of_true rfl h2
  · rw [max_eq_right (not_lt.mp h1)]
    simp only [reduceCtorEq, false_iff, not_lt]
    exact le_of_not_lt h2

/-- Closed instance of `drop_iff_clamped_exceeds_limit`: a base wait of
100000 ms with no deviation and no overrides is dropped. -/
theorem drop_iff_clamped_exceeds_limit_witness :
    (variate ⟨100000, 0, none, none, none⟩ none
        ⟨false, true, false, [1], .int 0, .err⟩ [1] "t" 0 0).2 = .drop :=
  (drop_iff_clamped_exceeds_limit _ _ _ _ _ _ _ (Or.inr rfl)).mpr
    (by norm_num [clampedDelay, jitteredDelay, selectDelay])

/-- C5 (amended): with no override tables, deviation `D > 0`, and base wait
`W > -D`, every possible draw of `randrange(-D, D)` produces a final
clamped delay in `[max(0, W - D), W + D)`. -/
theorem jitter_range_within_bounds (s : Settings) (setFlag : Bool)
    (v : SnmpVal) (now j : ℤ) (hv : s.vlist = none) (ht : s.tlist = none)
    (hD : 0 < s.deviation) (hW : -s.deviation < s.wait)
    (hj : j ∈ randrangeSupport s.deviation) :
    clampedDelay s setFlag v now j ∈
      Set.Ico (max 0 (s.wait - s.deviation)) (s.wait + s.deviation) := by
  obtain ⟨-, hj1, hj2⟩ := hj
  have hsel : selectDelay s setFlag v now = s.wait := by
    cases setFlag <;> simp [selectDelay, hv, ht]
  have hdev : s.deviation ≠ 0 := ne_of_gt hD
  rw [Set.mem_Ico]
  unfold clampedDelay jitteredDelay
  rw [hsel, if_pos hdev]
  constructor
  · exact max_le_max le_rfl (by linarith)
  · exact max_lt (by linarith) (by linarith)

/-- Counterexample to C5 as stated: with base wait `W = -5` and deviation
`D = 1` the claimed interval `[max(0, W - D), W + D) = [0, -4)` is empty,
yet the draw `j = 0` is possible and the clamped delay is `0`. -/
theorem jitter_range_fails_for_negative_wait :
    (0 : ℤ) ∈ randrangeSupport (1 : ℚ) ∧
    clampedDelay ⟨-5, 1, none, none, none⟩ false (.int 0) 0 0 ∉
      Set.Ico (max 0 ((-5 : ℚ) - 1)) ((-5 : ℚ) + 1) := by
  constructor
  · refine ⟨rfl, by norm_num, by norm_num⟩
  · simp only [clampedDelay, jitteredDelay, selectDelay, Set.mem_Ico, not_and, not_lt]
    norm_num

/-- C6: for a write with a configured vlist, the delay is chosen with
priority eq (exact value match), then lt (value strictly below threshold),
then gt (value strictly above threshold); when none match, it falls back
to the base wait, not a drop. -/
theorem vlist_priority (s : Settings) (t : VOverrides) (v : SnmpVal)
    (now : ℤ) (hs : s.vlist = some t) :
    (∀ d, lookupEq t.eq v = some d → selectDelay s true v now = (d : ℚ)) ∧
    (∀ thr d, lookupEq t.eq v = none → t.lt = some (thr, d) →
      pyLt v thr = true → selectDelay s true v now = (d : ℚ)) ∧
    (∀ thr d, lookupEq t.eq v = none →
      (∀ thr' d', t.lt = some (thr', d') → pyLt v thr' = false) →
      t.gt = some (thr, d) → pyLt thr v = true →
      selectDelay s true v now = (d : ℚ)) ∧
    (lookupEq t.eq v = none →
      (∀ thr' d', t.lt = some (thr', d') → pyLt v thr' = false) →
      (∀ thr' d', t.gt = some (thr', d') → pyLt thr' v = false) →
      selectDelay s true v now = s.wait) := by
  have hsel : selectDelay s true v now = vlistSelect t v s.wait := by
    simp [selectDelay, hs]
  refine ⟨?_, ?_, ?_, ?_⟩
  · intro d hd
    rw [hsel]
    simp [vlistSelect, hd]
  · intro thr d heq hlt hcmp
    rw [hsel]
    simp [vlistSelect, heq, hlt, hcmp]
  · intro thr d heq hlt hgt hcmp
    rw [hsel]
    rcases h : t.lt with - | ⟨thr', d'⟩
    · simp [vlistSelect, vlistGt, heq, h, hgt, hcmp]
    · simp [vlistSelect, vlistGt, heq, h, hgt, hcmp, hlt thr' d' h]
  · intro heq hlt hgt
    rw [hsel]
    rcases h : t.lt with - | ⟨thr', d'⟩ <;> rcases h2 : t.gt with - | ⟨thr2, d2⟩
    · simp [vlistSelect, vlistGt, heq, h, h2]
    · simp [vlistSelect, vlistGt, heq, h, h2, hgt thr2 d2 h2]
    · simp [vlistSelect, vlistGt, heq, h, h2, hlt thr' d' h]
    · simp [vlistSelect, vlistGt, heq, h, h2, hlt thr' d' h, hgt thr2 d2 h2]

/-- Closed instance of `jitter_range_within_bounds`: wait 500, deviation 100,
draw -100. -/
theorem jitter_range_within_bounds_witness :
    clampedDelay ⟨500, 100, none, none, none⟩ false (.int 0) 0 (-100) ∈
      Set.Ico (max 0 ((500 : ℚ) - 100)) ((500 : ℚ) + 100) :=
  jitter_range_within_bounds ⟨500, 100, none, none, none⟩ false (.int 0) 0
    (-100) rfl rfl (by norm_num) (by norm_num)
    ⟨rfl, by norm_num, by norm_num⟩

/-- Closed instance of `vlist_priority`: `eq:5:100` with written value 5
selects delay 100; written value 6 with no lt/gt falls back to the base
wait 500. -/
theorem vlist_priority_witness :
    selectDelay ⟨500, 0, none, some ⟨[(.int 5, 100)], none, none⟩, none⟩
        true (.int 5) 0 = 100 ∧
    selectDelay ⟨500, 0, none, some ⟨[(.int 5, 100)], none, none⟩, none⟩
        true (.int 6) 0 = 500 := by
  constructor
  · have h := (vlist_priority ⟨500, 0, none, some ⟨[(.int 5, 100)], none, none⟩, none⟩
      ⟨[(.int 5, 100)], none, none⟩ (.int 5) 0 rfl).1 100 (by simp [lookupEq, pyEq])
    rw [h]; norm_num
  · exact (vlist_priority ⟨500, 0, none, some ⟨[(.int 5, 100)], none, none⟩, none⟩
      ⟨[(.int 5, 100)], none, none⟩ (.int 6) 0 rfl).2.2.2
      (by simp [lookupEq, pyEq]) (fun _ _ h => nomatch h) (fun _ _ h => nomatch h)

/-- C7 is violated by the code: the tlist `eq` guard compares `now` with the
`eq` dict object itself, which is never true, so a tlist of `eq:1000:50`
with base wait 500 yields 500 at time 1000 where the claim demands 50. -/
theorem tlist_eq_never_matches :
    selectDelay ⟨500, 0, none, none, some ⟨[(1000, 50)], none, none⟩⟩
        false (.int 0) 1000 = 500 ∧
    selectDelay ⟨500, 0, none, none, some ⟨[(1000, 50)], none, none⟩⟩
        false (.int 0) 1000 ≠ 50 := by
  have h : selectDelay ⟨500, 0, none, none, some ⟨[(1000, 50)], none, none⟩⟩
      false (.int 0) 1000 = 500 := by
    simp [selectDelay, tlistSelect, tlistGt, pyIntEqDict]
  exact ⟨h, by rw [h]; norm_num⟩

end Delay

namespace Multiplex

/-- Python `int()` applied to a float/rational: truncation toward zero. -/
def pyInt (q : ℚ) : ℤ :=
  if q < 0 then ⌈q⌉ else ⌊q⌋

/-- Python `%` on floats: `a % m = a - m * floor(a / m)`, which for a
positive modulus lands in `[0, m)`. -/
def qmod (a m : ℚ) : ℚ :=
  a - m * (⌊a / m⌋ : ℤ)

/-- Python `min()` over a list of ints (it raises on an empty list; the
default is never exercised under the nonempty-directory hypotheses). -/
def pyMin : List ℤ → ℤ
  | [] => 0
  | x :: xs => xs.foldl min x

/-- One step domain of CPython's `bisect_right` loop
(`while lo < hi: mid = (lo+hi)//2; if x < a[mid]: hi = mid else: lo = mid+1`).
The fuel argument makes the loop structurally recursive; since the interval
shrinks at every iteration, `a.length` units of fuel always suffice. -/
def bisectGo (a : List ℤ) (x : ℤ) : ℕ → ℕ → ℕ → ℕ
  | 0, lo, _ => lo
  | fuel + 1, lo, hi =>
    if lo < hi then
      let mid := (lo + hi) / 2
      if x < a.getD mid 0 then bisectGo a x fuel lo mid
      else bisectGo a x fuel (mid + 1) hi
    else lo

/-- `bisect.bisect(a, x)` (= `bisect_right`) as called at
`multiplex.py` line 201. -/
def bisectRight (a : List ℤ) (x : ℤ) : ℕ :=
  bisectGo a x a.length 0 a.length

/-- Python list subscription with its negative-index convention
(`keys[fileno]` at `multiplex.py` line 209). -/
def pyGet (a : List ℤ) (i : ℤ) : ℤ :=
  if 0 ≤ i then a.getD i.toNat 0 else a.getD (a.length - (-i).toNat) 0

/-- The per-subtree `recordContext` after the one-time settings parse and
directory scan (`multiplex.py` lines 85-150): rotation period (default 60),
wrap flag (default false), optional control OID, and the registered
`fileId`s in the order `os.listdir` delivered them
(`recordContext['keys'] = list(recordContext['dirmap'])`, line 122). -/
structure MpxContext where
  period : ℚ
  wrap : Bool
  control : Option Oid
  keys : List ℤ
  deriving DecidableEq

/-- The candidate `fileno` (an index into `keys`) computed by the periodic
branch (`multiplex.py` lines 193-201): `uptime % (period * len(dirmap))`
gives the timeslot, `int(timeslot / period) + bounds[0]` the target file
id, and `bisect.bisect(keys, fileslot) - 1` the index of the candidate. -/
def candidateIndex (keys : List ℤ) (period uptime : ℚ) : ℤ :=
  let timeslot := qmod uptime (period * keys.length)
  let fileslot := pyInt (timeslot / period) + pyMin keys
  (bisectRight keys fileslot : ℤ) - 1

/-- The registered file id chosen by the periodic branch:
`keys[candidateIndex]` with Python indexing. -/
def selectedFileId (keys : List ℤ) (period uptime : ℚ) : ℤ :=
  pyGet keys (candidateIndex keys period uptime)

/-- The session update of `multiplex.py` lines 203-206: the stored `fileno`
is overwritten by the candidate only when it is unset, strictly smaller
than the candidate, or the wrap flag is on. -/
def updateFileno (old : Option ℤ) (cand : ℤ) (wrap : Bool) : ℤ :=
  match old with
  | none => cand
  | some o => if o < cand ∨ wrap = true then cand else o

/-- The sequence of `fileno` values a subtree session passes through when
the periodic branch serves one request per listed uptime. -/
def periodicTrajectory (keys : List ℤ) (period : ℚ) (wrap : Bool) :
    Option ℤ → List ℚ → List ℤ
  | _, [] => []
  | st, u :: us =>
    let f := updateFileno st (candidateIndex keys period u) wrap
    f :: periodicTrajectory keys period wrap (some f) us

/-- Python exceptions that escape the modelled fragments. -/
inductive PyExc
  | keyError
  | typeError
  deriving DecidableEq

/-- The write path of `multiplex.variate` (`multiplex.py` lines 158-180).
Its guard is written
`'control' in (recordContext['settings'] and recordContext['settings']['control'] == context['origOid'])`:
the parenthesisation makes `and` evaluate first, and since the settings
dict is never empty (it always holds at least `dir`, `period` and `wrap`),
`and` yields its right operand — a `KeyError` when no control OID is
configured, and otherwise the boolean comparison result, to which the
outer `in` is applied, raising `TypeError` (argument of type `bool` is not
iterable).  Every write request therefore raises, and the pin/echo body
below the guard (bounds check on the written index, `fileno` assignment,
value echo) as well as the non-control error echo are dead code. -/
def variateSet (c : MpxContext) (_fileno : Option ℤ) (_origOid : Oid)
    (_origValue : ℤ) : Except PyExc (Option ℤ × Oid × ℤ) :=
  match c.control with
  | none => .error .keyError
  | some _ => .error .typeError

/-- `get_record` on the open snapshot text positioned at record `i`:
yields the stored line, or the empty string at end of file. -/
def getRecord (lines : List String) (i : ℕ) : String :=
  lines.getD i ""

/-- The tail of the resolution path (`multiplex.py` lines 257-266): an
empty line is no-data; otherwise the external codec decodes the line, a
decode failure (`error.SnmpsimError`) being caught and turned into the
original identifier with error-status. -/
def finishResolve (evaluate : String → Except Unit (Oid × SnmpVal))
    (line : String) (origOid : Oid) (tag : String) (errorStatus : SnmpVal) :
    Oid × String × SnmpVal :=
  if line = "" then (origOid, tag, errorStatus)
  else
    match evaluate line with
    | .ok (o, v) => (o, tag, v)
    | .error _ => (origOid, tag, errorStatus)

/-- Identifier resolution against the open snapshot (`multiplex.py` lines
234-266).  `lookupResult` models the external `RecordIndex.lookup`: the
offset of the exact match, or `none` when it raises `KeyError`, in which
case `searchOffset` models `search_record_by_oid`'s next-at-or-after
position.  A "next" request on an exact match reads one further record;
a direct request on an inexact match is answered no-data. -/
def resolveRecord (evaluate : String → Except Unit (Oid × SnmpVal))
    (lines : List String) (lookupResult : Option ℕ) (searchOffset : ℕ)
    (origOid : Oid) (tag : String) (errorStatus : SnmpVal)
    (nextFlag : Bool) : Oid × String × SnmpVal :=
  match lookupResult with
  | none =>
    if nextFlag then
      finishResolve evaluate (getRecord lines searchOffset) origOid tag errorStatus
    else (origOid, tag, errorStatus)
  | some i =>
    finishResolve evaluate
      (if nextFlag then getRecord lines (i + 1) else getRecord lines i)
      origOid tag errorStatus

/-- The module-level recording state of `multiplex.record`
(`moduleContext`): whether an output file is open, the output file
sequence number, the pass start time, the optional remaining iteration
count, and the rotation period. -/
structure RecState where
  hasFile : Bool
  filenum : ℤ
  started : ℚ
  iterations : Option ℤ
  period : ℚ
  deriving DecidableEq

/-- Outcome of a `multiplex.record` call on the stop path. -/
inductive RecOutcome
  | moreData (wait : ℚ)
  | noData
  deriving DecidableEq

/-- The file cleanup at the head of the stop path (`multiplex.py` lines
277-282): close and forget an open output file, otherwise reset the file
sequence number to 0. -/
def stopCleanup (st : RecState) : RecState :=
  if st.hasFile then { st with hasFile := false }
  else { st with filenum := 0 }

/-- The stop path of `multiplex.record` (`multiplex.py` lines 276-297).
`t1` is the value of the `time.time()` call that overwrites `started`
(line 288) and `t2` that of the call inside the wait computation
(line 292); both happen in direct succession inside the same handler.
When a nonzero iteration count remains the state is rotated and
`MoreData` is signalled with wait `max(0, period - (t2 - t1))`; otherwise
`NoDataNotification` ends the capture. -/
def recordStop (st : RecState) (t1 t2 : ℚ) : RecState × RecOutcome :=
  let st1 := stopCleanup st
  match st1.iterations with
  | some n =>
    if n ≠ 0 then
      let st2 := { st1 with
        started := t1
        iterations := some (n - 1)
        filenum := st1.filenum + 1 }
      (st2, .moreData (max 0 (st2.period - (t2 - t1))))
    else (st1, .noData)
  | none => (st1, .noData)

end Multiplex

namespace Multiplex

lemma foldl_min_spec (xs : List ℤ) :
    ∀ acc : ℤ, xs.foldl min acc ∈ acc :: xs ∧ xs.foldl min acc ≤ acc ∧
      ∀ k ∈ xs, xs.foldl min acc ≤ k := by
  induction xs with
  | nil => intro acc; simp
  | cons y ys ih =>
    intro acc
    obtain ⟨h1, h2, h3⟩ := ih (min acc y)
    simp only [List.foldl_cons]
    refine ⟨?_, ?_, ?_⟩
    · rcases List.mem_cons.mp h1 with h | h
      · rcases min_choice acc y with hm | hm
        · exact List.mem_cons.mpr (Or.inl (h.trans hm))
        · exact List.mem_cons.mpr (Or.inr (List.mem_cons.mpr
            (Or.inl (h.trans hm))))
      · exact List.mem_cons.mpr (Or.inr (List.mem_cons.mpr (Or.inr h)))
    · exact h2.trans (min_le_left _ _)
    · intro k hk
      rcases List.mem_cons.mp hk with rfl | h
      · exact h2.trans (min_le_right _ _)
      · exact h3 k h

lemma pyMin_mem : ∀ l : List ℤ, l ≠ [] → pyMin l ∈ l
  | [], h => absurd rfl h
  | x :: xs, _ => (foldl_min_spec xs x).1

lemma pyMin_le (l : List ℤ) : ∀ k ∈ l, pyMin l ≤ k := by
  cases l with
  | nil => simp
  | cons x xs =>
    intro k hk
    obtain ⟨h1, h2, h3⟩ := foldl_min_spec xs x
    rcases List.mem_cons.mp hk with rfl | h
    · exact h2
    · exact h3 k h

lemma qmod_nonneg (a m : ℚ) (hm : 0 < m) : 0 ≤ qmod a m := by
  unfold qmod
  have h1 : m * (⌊a / m⌋ : ℚ) ≤ m * (a / m) :=
    mul_le_mul_of_nonneg_left (Int.floor_le (a / m)) hm.le
  have h2 : m * (a / m) = a := by field_simp
  linarith

lemma bisectGo_bounds (a : List ℤ) (x : ℤ) :
    ∀ fuel lo hi : ℕ, lo ≤ hi →
      lo ≤ bisectGo a x fuel lo hi ∧ bisectGo a x fuel lo hi ≤ hi := by
  intro fuel
  induction fuel with
  | zero => intro lo hi h; exact ⟨le_rfl, h⟩
  | succ fuel ih =>
    intro lo hi h
    simp only [bisectGo]
    by_cases hlt : lo < hi
    · rw [if_pos hlt]
      have hmidlo : lo ≤ (lo + hi) / 2 :=
        (Nat.le_div_iff_mul_le (by norm_num)).mpr (by omega)
      have hmidhi : (lo + hi) / 2 < hi :=
        (Nat.div_lt_iff_lt_mul (by norm_num)).mpr (by omega)
      by_cases hx : x < a.getD ((lo + hi) / 2) 0
      · rw [if_pos hx]
        obtain ⟨ha, hb⟩ := ih lo ((lo + hi) / 2) hmidlo
        exact ⟨ha, hb.trans hmidhi.le⟩
      · rw [if_neg hx]
        obtain ⟨ha, hb⟩ := ih ((lo + hi) / 2 + 1) hi hmidhi
        exact ⟨le_trans (by omega) ha, hb⟩
    · rw [if_neg hlt]
      exact ⟨le_rfl, h⟩

lemma sorted_getD_mono {a : List ℤ} (ha : a.Sorted (· ≤ ·)) {i j : ℕ}
    (hij : i ≤ j) (hj : j < a.length) : a.getD i 0 ≤ a.getD j 0 := by
  have hi : i < a.length := lt_of_le_of_lt hij hj
  rw [List.getD_eq_getElem a 0 hi, List.getD_eq_getElem a 0 hj,
    ← List.get_eq_getElem a ⟨i, hi⟩, ← List.get_eq_getElem a ⟨j, hj⟩]
  exact ha.rel_get_of_le (show (⟨i, hi⟩ : Fin a.length) ≤ ⟨j, hj⟩ from hij)

lemma bisectGo_spec (a : List ℤ) (x : ℤ) (ha : a.Sorted (· ≤ ·)) :
    ∀ fuel lo hi : ℕ, hi ≤ a.length → hi - lo ≤ fuel →
      (∀ i, i < lo → a.getD i 0 ≤ x) →
      (∀ i, hi ≤ i → i < a.length → x < a.getD i 0) →
      (∀ i, i < bisectGo a x fuel lo hi → a.getD i 0 ≤ x) ∧
      (∀ i, bisectGo a x fuel lo hi ≤ i → i < a.length → x < a.getD i 0) := by
  intro fuel
  induction fuel with
  | zero =>
    intro lo hi hlen hfuel hlow hhigh
    have hhl : hi ≤ lo := by omega
    exact ⟨hlow, fun i h1 h2 => hhigh i (hhl.trans h1) h2⟩
  | succ fuel ih =>
    intro lo hi hlen hfuel hlow hhigh
    simp only [bisectGo]
    by_cases hlt : lo < hi
    · rw [if_pos hlt]
      have hmidlo : lo ≤ (lo + hi) / 2 :=
        (Nat.le_div_iff_mul_le (by norm_num)).mpr (by omega)
      have hmidhi : (lo + hi) / 2 < hi :=
        (Nat.div_lt_iff_lt_mul (by norm_num)).mpr (by omega)
      have hmidlen : (lo + hi) / 2 < a.length := lt_of_lt_of_le hmidhi hlen
      by_cases hx : x < a.getD ((lo + hi) / 2) 0
      · rw [if_pos hx]
        refine ih lo ((lo + hi) / 2) (hmidlen.le) (by omega) hlow ?_
        intro i h1 h2
        exact lt_of_lt_of_le hx (sorted_getD_mono ha h1 h2)
      · rw [if_neg hx]
        refine ih ((lo + hi) / 2 + 1) hi hlen (by omega) ?_ hhigh
        intro i h1
        exact le_trans (sorted_getD_mono ha (by omega) hmidlen) (not_lt.mp hx)
    · rw [if_neg hlt]
      have hhl : hi ≤ lo := not_lt.mp hlt
      exact ⟨hlow, fun i h1 h2 => hhigh i (hhl.trans h1) h2⟩

lemma bisectRight_spec (a : List ℤ) (x : ℤ) (ha : a.Sorted (· ≤ ·)) :
    (∀ i, i < bisectRight a x → a.getD i 0 ≤ x) ∧
    (∀ i, bisectRight a x ≤ i → i < a.length → x < a.getD i 0) ∧
    bisectRight a x ≤ a.length := by
  have h1 := bisectGo_spec a x ha a.length 0 a.length le_rfl (by omega)
    (by omega) (by omega)
  have h2 := bisectGo_bounds a x a.length 0 a.length (Nat.zero_le _)
  exact ⟨h1.1, h1.2, h2.2⟩

end Multiplex

namespace Multiplex

lemma le_updateFileno (o c : ℤ) : o ≤ updateFileno (some o) c false := by
  simp only [updateFileno]
  rcases lt_or_le o c with h | h
  · rw [if_pos (Or.inl h)]
    exact h.le
  · have hn : ¬(o < c ∨ false = true) := by simp [not_lt.mpr h]
    rw [if_neg hn]

lemma periodicTrajectory_head_le (keys : List ℤ) (period : ℚ) (o : ℤ) :
    ∀ us : List ℚ,
      ∀ y ∈ (periodicTrajectory keys period false (some o) us).head?, o ≤ y := by
  intro us
  cases us with
  | nil => simp [periodicTrajectory]
  | cons u us =>
    intro y hy
    simp only [periodicTrajectory, List.head?_cons, Option.mem_def,
      Option.some.injEq] at hy
    rw [← hy]
    exact le_updateFileno _ _

lemma periodicTrajectory_chain (keys : List ℤ) (period : ℚ) :
    ∀ (us : List ℚ) (st : Option ℤ),
      (periodicTrajectory keys period false st us).Chain' (· ≤ ·) := by
  intro us
  induction us with
  | nil => intro st; simp [periodicTrajectory]
  | cons u us ih =>
    intro st
    simp only [periodicTrajectory]
    exact List.chain'_cons'.mpr ⟨periodicTrajectory_head_le keys period _ us, ih _⟩

/-- C3: the periodic-mode session `fileno` is overwritten by the computed
candidate exactly when it is unset, strictly smaller than the candidate,
or the wrap flag is enabled; consequently, with wrap disabled, the
sequence of `fileno` values over any run of requests is monotonically
non-decreasing. -/
theorem fileno_update_monotone (keys : List ℤ) (period : ℚ) :
    (∀ cand wrap, updateFileno none cand wrap = cand) ∧
    (∀ o cand, updateFileno (some o) cand true = cand) ∧
    (∀ o cand, o < cand → updateFileno (some o) cand false = cand) ∧
    (∀ o cand, ¬o < cand → updateFileno (some o) cand false = o) ∧
    (∀ (st : Option ℤ) (us : List ℚ),
      (periodicTrajectory keys period false st us).Chain' (· ≤ ·)) := by
  refine ⟨fun cand wrap => rfl, ?_, ?_, ?_, fun st us =>
    periodicTrajectory_chain keys period us st⟩
  · intro o cand
    simp [updateFileno]
  · intro o cand h
    simp [updateFileno, h]
  · intro o cand h
    simp [updateFileno, h]

/-- Closed instance of `fileno_update_monotone`. -/
theorem fileno_update_monotone_witness :
    updateFileno (some 1) 2 false = 2 ∧
    updateFileno (some 3) 2 false = 3 ∧
    (periodicTrajectory [0, 1, 2, 3] 10 false none [25, 5, 41]).Chain'
      (· ≤ ·) :=
  ⟨(fileno_update_monotone [0, 1, 2, 3] 10).2.2.1 1 2 (by norm_num),
   (fileno_update_monotone [0, 1, 2, 3] 10).2.2.2.1 3 2 (by norm_num),
   (fileno_update_monotone [0, 1, 2, 3] 10).2.2.2.2 none [25, 5, 41]⟩

/-- C1 is violated by the code: by evaluation of the (mis-parenthesised)
guard of the write path, a write to the configured control identifier
with an in-range index raises `TypeError` instead of pinning the session
to that snapshot and echoing the value, and a write with no control
configured raises `KeyError` instead of echoing error-status. -/
theorem control_write_raises :
    variateSet ⟨60, false, some [1, 3, 6, 1], [0, 1, 2]⟩ none [1, 3, 6, 1] 1 =
      .error .typeError ∧
    variateSet ⟨60, false, none, [0, 1, 2]⟩ none [1, 3, 6, 1] 1 =
      .error .keyError :=
  ⟨rfl, rfl⟩

/-- C8: on a non-next (direct) request, an inexact lookup — and likewise an
exact lookup whose stored line the codec fails to decode — yields the
original identifier with error-status rather than a neighbouring record
or a propagated exception. -/
theorem direct_inexact_or_decode_failure_no_data
    (evaluate : String → Except Unit (Oid × SnmpVal)) (lines : List String)
    (lookupResult : Option ℕ) (searchOffset : ℕ) (origOid : Oid)
    (tag : String) (errorStatus : SnmpVal)
    (h : lookupResult = none ∨
      ∃ i e, lookupResult = some i ∧ evaluate (getRecord lines i) = .error e) :
    resolveRecord evaluate lines lookupResult searchOffset origOid tag
      errorStatus false = (origOid, tag, errorStatus) := by
  rcases h with h | ⟨i, e, hi, he⟩
  · simp [resolveRecord, h]
  · subst hi
    simp [resolveRecord, finishResolve, he]

/-- Closed instance of `direct_inexact_or_decode_failure_no_data`: an exact
hit whose line fails to decode echoes error-status. -/
theorem direct_decode_failure_witness :
    resolveRecord
      (fun l => if l = "good" then .ok ([1, 3], .int 7) else .error ())
      ["bad"] (some 0) 0 [1, 3] "t" .err false = ([1, 3], "t", .err) :=
  direct_inexact_or_decode_failure_no_data _ _ _ _ _ _ _
    (Or.inr ⟨0, (), rfl, rfl⟩)

end Multiplex

namespace Multiplex

/-- Counterexample to C9 as stated: with period 10, a pass started at time 0
and the stop signal handled at time 7, the code signals `MoreData` with
wait 10 (the full period), not `max(0, period - elapsed) = 3`, because
`started` is overwritten with the current time immediately before the wait
is computed from it. -/
theorem record_stop_wait_ignores_elapsed :
    (recordStop ⟨true, 0, 0, some 2, 10⟩ 7 7).2 = .moreData 10 ∧
    (10 : ℚ) ≠ max 0 ((10 : ℚ) - (7 - 0)) := by
  constructor
  · norm_num [recordStop, stopCleanup]
  · norm_num

/-- C9 (amended): on a stop signal the open output file is closed (or the
file number reset when none is open); with a nonzero remaining iteration
count, the count is decremented, the file sequence number advanced by one,
and `MoreData` signalled carrying `max 0 (period - (t2 - t1))` where `t1`
is the freshly reset pass-start timestamp — effectively the full period,
not the period minus the time elapsed since the pass began; with no
iterations remaining, `NoDataNotification` terminates the capture. -/
theorem record_stop_behavior (st : RecState) (t1 t2 : ℚ) :
    (stopCleanup st).hasFile = false ∧
    (∀ n, st.iterations = some n → n ≠ 0 →
      recordStop st t1 t2 =
        ({ stopCleanup st with
            started := t1
            iterations := some (n - 1)
            filenum := (stopCleanup st).filenum + 1 },
          .moreData (max 0 (st.period - (t2 - t1))))) ∧
    (st.iterations = some 0 → recordStop st t1 t2 = (stopCleanup st, .noData)) ∧
    (st.iterations = none → recordStop st t1 t2 = (stopCleanup st, .noData)) := by
  have hit : (stopCleanup st).iterations = st.iterations := by
    unfold stopCleanup
    split_ifs <;> rfl
  have hpd : (stopCleanup st).period = st.period := by
    unfold stopCleanup
    split_ifs <;> rfl
  refine ⟨?_, ?_, ?_, ?_⟩
  · unfold stopCleanup
    split_ifs with h
    · rfl
    · simpa using (Bool.not_eq_true _).mp h
  · intro n hn hnz
    unfold recordStop
    dsimp only
    rw [hit, hn]
    simp only [hnz, if_true, ne_eq, not_false_eq_true]
    rw [hpd]
  · intro h0
    unfold recordStop
    dsimp only
    rw [hit, h0]
    simp
  · intro h0
    unfold recordStop
    dsimp only
    rw [hit, h0]

/-- Closed instance of `record_stop_behavior`. -/
theorem record_stop_behavior_witness :
    recordStop ⟨true, 3, 0, some 2, 10⟩ 7 7 =
      (⟨false, 4, 7, some 1, 10⟩, .moreData 10) := by
  have h := (record_stop_behavior ⟨true, 3, 0, some 2, 10⟩ 7 7).2.1 2 rfl
    (by norm_num)
  rw [h]
  norm_num [stopCleanup]

end Multiplex

namespace Multiplex

lemma bisect_greatest (keys : List ℤ) (x : ℤ) (hs : keys.Sorted (· ≤ ·))
    (hne : keys ≠ []) (hx : pyMin keys ≤ x) :
    1 ≤ bisectRight keys x ∧
    keys.getD (bisectRight keys x - 1) 0 ∈ keys ∧
    keys.getD (bisectRight keys x - 1) 0 ≤ x ∧
    ∀ k ∈ keys, k ≤ x → k ≤ keys.getD (bisectRight keys x - 1) 0 := by
  obtain ⟨hlow, hhigh, hrlen⟩ := bisectRight_spec keys x hs
  have hr1 : 1 ≤ bisectRight keys x := by
    by_contra hcon
    have hr0 : bisectRight keys x = 0 := by omega
    obtain ⟨⟨i0, hi0⟩, hget⟩ := List.mem_iff_get.mp (pyMin_mem keys hne)
    have hlt := hhigh i0 (by omega) hi0
    rw [List.getD_eq_getElem keys 0 hi0,
      ← List.get_eq_getElem keys ⟨i0, hi0⟩, hget] at hlt
    omega
  have hr1len : bisectRight keys x - 1 < keys.length := by omega
  refine ⟨hr1, ?_, hlow _ (by omega), ?_⟩
  · rw [List.getD_eq_getElem keys 0 hr1len,
      ← List.get_eq_getElem keys ⟨bisectRight keys x - 1, hr1len⟩]
    exact List.get_mem keys _ _
  · intro k hk hkle
    obtain ⟨⟨i, hi⟩, rfl⟩ := List.mem_iff_get.mp hk
    have hgi : keys.get ⟨i, hi⟩ = keys.getD i 0 :=
      (List.getD_eq_getElem keys 0 hi).symm
    by_cases hir : i < bisectRight keys x
    · rw [hgi]
      exact sorted_getD_mono hs (by omega) hr1len
    · have hlt := hhigh i (by omega) hi
      rw [← hgi] at hlt
      omega

/-- The target file id exactly as the specification words it:
`targetFileId = min(K) + floor(timeslot / period)` with
`timeslot = uptime mod (period × numberOfFiles)`. -/
def specTargetFileId (keys : List ℤ) (period uptime : ℚ) : ℤ :=
  pyMin keys + ⌊qmod uptime (period * keys.length) / period⌋

/-- C2: in periodic mode, the code's file slot (`int(timeslot / period) +
bounds[0]`, on `timeslot = uptime % (period * len(dirmap))`) coincides
with the spec formula `min(K) + floor(timeslot / P)`, and the selected
registered file id is the greatest one at most that target, obtained by
`bisect` over the sorted id list; e.g. ids {0,1,2,3}, period 10 and
uptime 25 select id 2. -/
theorem periodic_selects_greatest (keys : List ℤ) (period uptime : ℚ)
    (hs : keys.Sorted (· < ·)) (hne : keys ≠ []) (hp : 0 < period) :
    pyInt (qmod uptime (period * keys.length) / period) + pyMin keys =
      specTargetFileId keys period uptime ∧
    selectedFileId keys period uptime ∈ keys ∧
    selectedFileId keys period uptime ≤ specTargetFileId keys period uptime ∧
    ∀ k ∈ keys, k ≤ specTargetFileId keys period uptime →
      k ≤ selectedFileId keys period uptime := by
  have hlen : 0 < keys.length := List.length_pos.mpr hne
  have hm : 0 < period * (keys.length : ℚ) :=
    mul_pos hp (by exact_mod_cast hlen)
  have hts : 0 ≤ qmod uptime (period * keys.length) := qmod_nonneg _ _ hm
  have hdiv : 0 ≤ qmod uptime (period * keys.length) / period :=
    div_nonneg hts hp.le
  have hpyInt : pyInt (qmod uptime (period * keys.length) / period) =
      ⌊qmod uptime (period * keys.length) / period⌋ := by
    unfold pyInt
    rw [if_neg (not_lt.mpr hdiv)]
  have htarget : pyInt (qmod uptime (period * keys.length) / period) +
      pyMin keys = specTargetFileId keys period uptime := by
    unfold specTargetFileId
    rw [hpyInt, add_comm]
  have hfloor0 : 0 ≤ ⌊qmod uptime (period * keys.length) / period⌋ :=
    Int.floor_nonneg.mpr hdiv
  have hminle : pyMin keys ≤ specTargetFileId keys period uptime := by
    unfold specTargetFileId
    omega
  have hsle : keys.Sorted (· ≤ ·) := hs.imp (fun h => le_of_lt h)
  obtain ⟨hr1, hmem, hle, hgreat⟩ :=
    bisect_greatest keys (specTargetFileId keys period uptime) hsle hne hminle
  have hcand : candidateIndex keys period uptime =
      (bisectRight keys (specTargetFileId keys period uptime) : ℤ) - 1 := by
    unfold candidateIndex
    dsimp only
    rw [htarget]
  have hsel : selectedFileId keys period uptime =
      keys.getD (bisectRight keys (specTargetFileId keys period uptime) - 1) 0 := by
    unfold selectedFileId pyGet
    rw [hcand, if_pos (by omega : (0 : ℤ) ≤
      (bisectRight keys (specTargetFileId keys period uptime) : ℤ) - 1)]
    congr 1
    omega
  rw [hsel]
  exact ⟨htarget, hmem, hle, hgreat⟩

/-- Closed instance of `periodic_selects_greatest`, at the spec's worked
example: ids {0,1,2,3}, period 10, uptime 25 select file id 2. -/
theorem periodic_selects_greatest_witness :
    selectedFileId [0, 1, 2, 3] 10 25 ∈ ([0, 1, 2, 3] : List ℤ) ∧
    selectedFileId [0, 1, 2, 3] 10 25 = 2 := by
  have h := periodic_selects_greatest [0, 1, 2, 3] 10 25 (by decide)
    (by simp) (by norm_num)
  refine ⟨h.2.1, ?_⟩
  have htick : qmod 25 (10 * (([0, 1, 2, 3] : List ℤ).length : ℚ)) = 25 := by
    norm_num [qmod]
  have htgt : specTargetFileId [0, 1, 2, 3] 10 25 = 2 := by
    unfold specTargetFileId
    rw [htick]
    norm_num [pyMin]
  have hle2 : selectedFileId [0, 1, 2, 3] 10 25 ≤ 2 := by
    have hx := h.2.2.1
    rw [htgt] at hx
    exact hx
  have hge2 : (2 : ℤ) ≤ selectedFileId [0, 1, 2, 3] 10 25 :=
    h.2.2.2 2 (by simp) (by rw [htgt])
  omega

end Multiplex
